import Mathlib

/-!
Verification development for the LMCache local storage backends
(`lmcache/storage_backend/local_backend.py`) and the compactor instance
registry (`lmcache/compactor/__init__.py`).

The Python dictionaries (`OrderedDict`) are embedded as association lists
in insertion order; assignment to an existing key updates the value in
place (keeping the position), assignment to a fresh key appends at the
most-recently-inserted end, matching `OrderedDict` semantics.  The
filesystem seen by the disk backend is embedded as an association list
from path to payload.  The `threading.Lock` of the memory backend is
embedded as a boolean; acquiring a lock that is already held by the same
single worker thread blocks forever (the lock is non-reentrant), which is
embedded as the operation returning `none`.
-/

/-- Outcome of an admission decision, from
`storage_backend/evictor/base_evictor.py` (only `ILLEGAL` is referenced by
the backend source; `LEGAL` is the admitted case). -/
inductive PutStatus where
  | LEGAL
  | ILLEGAL
deriving DecidableEq, Repr

/-- A cache key (`lmcache.utils.CacheEngineKey`): an immutable identifier
with a canonical, collision-free string form.  We embed it as its
canonical string, so equality of keys is equality of canonical strings. -/
structure CacheEngineKey where
  s : String
deriving DecidableEq, Repr

/-- The canonical string form of a key (`CacheEngineKey.to_string`). -/
def CacheEngineKey.to_string (k : CacheEngineKey) : String := k.s

/-- An opaque payload (a KV tensor chunk): content plus a byte size used
for capacity accounting.  Device transfer (`.to(device)`) preserves
content, so it is the identity on this embedding. -/
structure Payload where
  data : Nat
  size : Nat
deriving DecidableEq, Repr

/-- `OrderedDict` lookup (`d.get(key)` / `d[key]`). -/
def odLookup {K V : Type} [DecidableEq K] : List (K × V) → K → Option V
  | [], _ => none
  | (k, v) :: rest, key => if k = key then some v else odLookup rest key

/-- `OrderedDict` membership (`key in d`). -/
def odContains {K V : Type} [DecidableEq K] (l : List (K × V)) (key : K) : Bool :=
  (odLookup l key).isSome

/-- `OrderedDict` assignment `d[key] = v`: update in place when the key is
present (keeping its position), append at the end otherwise. -/
def odSet {K V : Type} [DecidableEq K] : List (K × V) → K → V → List (K × V)
  | [], key, v => [(key, v)]
  | (k, w) :: rest, key, v =>
    if k = key then (k, v) :: rest else (k, w) :: odSet rest key v

/-- `OrderedDict` removal `d.pop(key)`: drop the entry with the given key
(keys are unique in every reachable state). -/
def odPop {K V : Type} [DecidableEq K] : List (K × V) → K → List (K × V)
  | [], _ => []
  | (k, w) :: rest, key =>
    if k = key then rest else (k, w) :: odPop rest key

/-- `OrderedDict.move_to_end(key)`: reposition the entry at the
most-recently-used end; no-op when the key is absent. -/
def odMoveToEnd {K V : Type} [DecidableEq K] (l : List (K × V)) (key : K) : List (K × V) :=
  match odLookup l key with
  | none => l
  | some v => odPop l key ++ [(key, v)]

/-- Modelled from the spec: the `LRUEvictor` class
(`storage_backend/evictor`) is not part of the given source.  Per the
spec it carries a capacity limit under an explicitly configured metric
(byte budget or item count). -/
structure LRUEvictor where
  capacity : Nat
deriving DecidableEq, Repr

/-- Total size of a catalog under a value-size function. -/
def totalSize {K V : Type} (vsize : V → Nat) (l : List (K × V)) : Nat :=
  (l.map (fun e => vsize e.2)).sum

/-- Modelled from the spec: the minimal oldest-first list of keys whose
eviction makes `need` units fit under capacity `cap`; empty when the
catalog already has room. -/
def evictKeysFrom {K V : Type} (vsize : V → Nat) (cap need : Nat) :
    List (K × V) → List K
  | [] => []
  | (k, v) :: rest =>
    if totalSize vsize ((k, v) :: rest) + need ≤ cap then []
    else k :: evictKeysFrom vsize cap need rest

/-- Modelled from the spec: `LRUEvictor.update_on_put(catalog, payload)`
(the evictor source is not under the given source tree).  Returns the
oldest-first eviction candidates and the admission status; the status is
`ILLEGAL` exactly when the incoming payload alone exceeds total capacity,
in which case the candidate list is empty and the catalog is untouched. -/
def LRUEvictor.update_on_put {K V : Type} (ev : LRUEvictor) (vsize : V → Nat)
    (cat : List (K × V)) (need : Nat) : List K × PutStatus :=
  if ev.capacity < need then ([], PutStatus.ILLEGAL)
  else (evictKeysFrom vsize ev.capacity need cat, PutStatus.LEGAL)

/-- Modelled from the spec: `LRUEvictor.update_on_get(key, catalog)`
repositions the key at the most-recently-used end of the catalog. -/
def LRUEvictor.update_on_get {K V : Type} [DecidableEq K]
    (key : K) (cat : List (K × V)) : List (K × V) :=
  odMoveToEnd cat key

/-- State of `LMCLocalBackend` (memory backend): the ordered catalog
`self.dict`, the evictor, and whether `self.update_lock` is held. -/
structure LMCLocalBackend where
  dict : List (CacheEngineKey × Payload)
  evictor : LRUEvictor
  lockHeld : Bool
deriving DecidableEq, Repr

/-- `LMCLocalBackend.contains`. -/
def LMCLocalBackend.contains (self : LMCLocalBackend) (key : CacheEngineKey) : Bool :=
  odContains self.dict key

/-- `LMCLocalBackend.remove`: `self.dict.pop(key)`; takes no lock. -/
def LMCLocalBackend.remove (self : LMCLocalBackend) (key : CacheEngineKey) :
    LMCLocalBackend :=
  { self with dict := odPop self.dict key }

/-- `LMCLocalBackend.put_blocking`: device transfer (content identity),
admission decision, abort on `ILLEGAL`, evictions, insertion.  The
mutex is never acquired on this path. -/
def LMCLocalBackend.put_blocking (self : LMCLocalBackend) (key : CacheEngineKey)
    (kv_chunk : Payload) : LMCLocalBackend :=
  match self.evictor.update_on_put Payload.size self.dict kv_chunk.size with
  | (_, PutStatus.ILLEGAL) => self
  | (evict_keys, PutStatus.LEGAL) =>
    let d := evict_keys.foldl odPop self.dict
    { self with dict := odSet d key kv_chunk }

/-- `LMCLocalBackend.put_nonblocking`: acquires `update_lock` (blocking
forever, i.e. `none`, when it is already held by this thread), decides
admission, and on `ILLEGAL` returns while still holding the lock; on the
admitted path it evicts, inserts and releases. -/
def LMCLocalBackend.put_nonblocking (self : LMCLocalBackend) (key : CacheEngineKey)
    (kv_chunk : Payload) : Option LMCLocalBackend :=
  if self.lockHeld then none
  else
    match self.evictor.update_on_put Payload.size self.dict kv_chunk.size with
    | (_, PutStatus.ILLEGAL) => some { self with lockHeld := true }
    | (evict_keys, PutStatus.LEGAL) =>
      let d := evict_keys.foldl odPop self.dict
      some { self with dict := odSet d key kv_chunk, lockHeld := false }

/-- `LMCLocalBackend.get`: plain lookup; on a hit, acquire the lock,
bump recency, release, and hand back the payload (device transfer is the
identity on content). -/
def LMCLocalBackend.get (self : LMCLocalBackend) (key : CacheEngineKey) :
    Option (Option Payload × LMCLocalBackend) :=
  match odLookup self.dict key with
  | none => some (none, self)
  | some v =>
    if self.lockHeld then none
    else some (some v, { self with dict := LRUEvictor.update_on_get key self.dict })

/-- A message on a put queue: a `(key, payload)` work item or the
`LocalBackendEndSignal` sentinel. -/
inductive QItem where
  | item (key : CacheEngineKey) (v : Payload)
  | endSignal
deriving DecidableEq, Repr

/-- `LMCLocalBackend.put_worker` run over the queue contents: pop each
message, stop at the end signal, apply work items via `put_nonblocking`.
`none` means the worker never finishes (it blocks on an empty queue or
deadlocks inside `put_nonblocking`). -/
def LMCLocalBackend.put_worker (self : LMCLocalBackend) :
    List QItem → Option LMCLocalBackend
  | [] => none
  | QItem.endSignal :: _ => some self
  | QItem.item key v :: rest =>
    (self.put_nonblocking key v).bind (fun s => s.put_worker rest)

/-- A memory backend together with its put queue and the liveness of its
worker thread. -/
structure MemBackendProc where
  backend : LMCLocalBackend
  put_queue : List QItem
  threadAlive : Bool
deriving DecidableEq, Repr

/-- `LMCLocalBackend.close`: when the worker thread is alive, push the
end signal and join (run the worker over the queue to completion); a
second call finds the thread dead and does nothing.  `none` means the
join never returns. -/
def MemBackendProc.close (p : MemBackendProc) : Option MemBackendProc :=
  if p.threadAlive then
    (p.backend.put_worker (p.put_queue ++ [QItem.endSignal])).map
      (fun b => ⟨b, [], false⟩)
  else some p

/-- `key.to_string().replace("/", "-")`: every path-separator character
of the canonical key string replaced by a hyphen. -/
def sanitize (s : String) : String :=
  String.mk (s.data.map (fun c => if c = '/' then '-' else c))

/-- State of `LMCLocalDiskBackend`: the base path `self.path`, the
ordered catalog `self.dict` from key to file path, and the files the
backend owns on disk (path to stored payload). -/
structure LMCLocalDiskBackend where
  path : String
  dict : List (CacheEngineKey × String)
  evictor : LRUEvictor
  files : List (String × Payload)
deriving DecidableEq, Repr

/-- `LMCLocalDiskBackend._key_to_path`:
`self.path + key.to_string().replace("/", "-") + ".pt"` — direct
concatenation, no separator inserted. -/
def LMCLocalDiskBackend.key_to_path (self : LMCLocalDiskBackend)
    (key : CacheEngineKey) : String :=
  self.path ++ sanitize key.to_string ++ ".pt"

/-- `LMCLocalDiskBackend.contains`. -/
def LMCLocalDiskBackend.contains (self : LMCLocalDiskBackend)
    (key : CacheEngineKey) : Bool :=
  odContains self.dict key

/-- `LMCLocalDiskBackend.remove`: read the stored path (`KeyError`, i.e.
`none`, when the key is absent), erase the catalog entry, then
`os.remove(path)` (an error, i.e. `none`, when the file is missing —
fatal per the spec, not swallowed). -/
def LMCLocalDiskBackend.remove (self : LMCLocalDiskBackend)
    (key : CacheEngineKey) : Option LMCLocalDiskBackend :=
  match odLookup self.dict key with
  | none => none
  | some p =>
    match odLookup self.files p with
    | none => none
    | some _ => some { self with dict := odPop self.dict key,
                                 files := odPop self.files p }

/-- `LMCLocalDiskBackend.put_blocking`: derive the path, decide
admission (abort untouched on `ILLEGAL`), remove each evicted key via
`self.remove`, then `save_file` (write/overwrite the file), then insert
the catalog entry.  The disk evictor instance is configured with the
item-count metric (each resident entry costs one unit). -/
def LMCLocalDiskBackend.put_blocking (self : LMCLocalDiskBackend)
    (key : CacheEngineKey) (kv_chunk : Payload) : Option LMCLocalDiskBackend :=
  let p := self.key_to_path key
  match self.evictor.update_on_put (fun _ => 1) self.dict 1 with
  | (_, PutStatus.ILLEGAL) => some self
  | (evict_keys, PutStatus.LEGAL) =>
    (evict_keys.foldlM LMCLocalDiskBackend.remove self).map
      (fun s => { s with files := odSet s.files p kv_chunk,
                         dict := odSet s.dict key p })

/-- `LMCLocalDiskBackend.get`: `None` on a catalog miss; on a hit bump
recency, then `safe_open` the stored path and read the "kv_chunk" field
(`none`, an error, when the file is missing). -/
def LMCLocalDiskBackend.get (self : LMCLocalDiskBackend)
    (key : CacheEngineKey) : Option (Option Payload × LMCLocalDiskBackend) :=
  match odLookup self.dict key with
  | none => some (none, self)
  | some p =>
    let s := { self with dict := LRUEvictor.update_on_get key self.dict }
    match odLookup s.files p with
    | none => none
    | some v => some (some v, s)

/-- `LMCLocalDiskBackend.put_worker` run over the queue contents: the
disk worker applies each item via `put_blocking` and stops at the end
signal.  `none` means the worker never finishes cleanly (empty queue
without a signal, or an error inside a queued put). -/
def LMCLocalDiskBackend.put_worker (self : LMCLocalDiskBackend) :
    List QItem → Option LMCLocalDiskBackend
  | [] => none
  | QItem.endSignal :: _ => some self
  | QItem.item key v :: rest =>
    (self.put_blocking key v).bind (fun s => s.put_worker rest)

/-- A disk backend together with its put queue and the liveness of its
worker thread. -/
structure DiskBackendProc where
  backend : LMCLocalDiskBackend
  put_queue : List QItem
  threadAlive : Bool
deriving DecidableEq, Repr

/-- `LMCLocalDiskBackend.close`: same protocol as the memory backend. -/
def DiskBackendProc.close (p : DiskBackendProc) : Option DiskBackendProc :=
  if p.threadAlive then
    (p.backend.put_worker (p.put_queue ++ [QItem.endSignal])).map
      (fun b => ⟨b, [], false⟩)
  else some p

/-- The two supported compactor classes (`H2OCompactor`,
`SinkCompactor`). -/
inductive CompactorKind where
  | h2o
  | sink
deriving DecidableEq, Repr

/-- A compactor instance (`BaseLocalCompactor`): its class plus a unique
identity tag so that "the very same instance" is expressible. -/
structure BaseLocalCompactor where
  kind : CompactorKind
  uid : Nat
deriving DecidableEq, Repr

/-- The class-level state of `LMCacheCompactorBuilder`: the
`_instances` mapping plus a counter producing fresh instance
identities. -/
structure BuilderState where
  instances : List (String × BaseLocalCompactor)
  counter : Nat
deriving DecidableEq, Repr

/-- `LMCacheCompactorBuilder.get_or_create`: return the existing
instance unconditionally when the id is registered (the policy argument
is not examined); otherwise construct per policy name, raising
(`Except.error`) on an unsupported name before any registry mutation. -/
def LMCacheCompactorBuilder.get_or_create (st : BuilderState)
    (instance_id compactor_type : String) :
    Except String (BaseLocalCompactor × BuilderState) :=
  match odLookup st.instances instance_id with
  | some c => Except.ok (c, st)
  | none =>
    if compactor_type = "H2O" then
      let c : BaseLocalCompactor := ⟨CompactorKind.h2o, st.counter⟩
      Except.ok (c, ⟨odSet st.instances instance_id c, st.counter + 1⟩)
    else if compactor_type = "Sink" then
      let c : BaseLocalCompactor := ⟨CompactorKind.sink, st.counter⟩
      Except.ok (c, ⟨odSet st.instances instance_id c, st.counter + 1⟩)
    else
      Except.error ("Compactor type " ++ compactor_type ++ " not supported")

/-- `LMCacheCompactorBuilder.get`: pure lookup, never creates. -/
def LMCacheCompactorBuilder.get (st : BuilderState) (instance_id : String) :
    Option BaseLocalCompactor :=
  odLookup st.instances instance_id

/-- The catalog/storage consistency invariant of the disk backend: keys
are unique; every catalog entry stores the derived path of its key and
its file exists; every file is named by some catalog entry; and no two
catalog entries share a path. -/
def DiskInv (s : LMCLocalDiskBackend) : Prop :=
  (s.dict.map Prod.fst).Nodup ∧
  (s.files.map Prod.fst).Nodup ∧
  (∀ k p, odLookup s.dict k = some p → p = s.key_to_path k) ∧
  (∀ k p, odLookup s.dict k = some p → odLookup s.files p ≠ none) ∧
  (∀ p, odLookup s.files p ≠ none → ∃ k, odLookup s.dict k = some p) ∧
  (∀ k1 k2 p, odLookup s.dict k1 = some p → odLookup s.dict k2 = some p → k1 = k2)

/-- Sample key used in concrete check runs. -/
def kA : CacheEngineKey := ⟨"k1"⟩

/-- A second sample key. -/
def kB : CacheEngineKey := ⟨"k2"⟩

/-- A key whose canonical string contains a path separator. -/
def kSlash : CacheEngineKey := ⟨"a/b"⟩

/-- A key whose canonical string contains a hyphen where `kSlash` has a
separator: the two are distinct but sanitize to the same filename. -/
def kDash : CacheEngineKey := ⟨"a-b"⟩

/-- A fresh empty disk backend over base path "" with capacity 5. -/
def sEmpty : LMCLocalDiskBackend := ⟨"", [], ⟨5⟩, []⟩

/-- The disk backend after an admitted put of `kA`. -/
def sOne : LMCLocalDiskBackend := ⟨"", [(kA, "k1.pt")], ⟨5⟩, [("k1.pt", ⟨7, 3⟩)]⟩

/-- A fresh empty memory backend with byte capacity 10, lock free. -/
def bEmpty : LMCLocalBackend := ⟨[], ⟨10⟩, false⟩

/-- A memory backend with two resident entries, byte capacity 10. -/
def bTwo : LMCLocalBackend := ⟨[(kA, ⟨7, 3⟩), (kB, ⟨8, 2⟩)], ⟨10⟩, false⟩

/-- A memory backend with byte capacity 2, so a size-3 payload is
rejected by admission. -/
def bTiny : LMCLocalBackend := ⟨[], ⟨2⟩, false⟩

/-- A disk backend with item capacity 0, so every put is rejected. -/
def dZero : LMCLocalDiskBackend := ⟨"", [], ⟨0⟩, []⟩

/-- An empty disk backend whose base path "p" does not end in a
separator. -/
def dP : LMCLocalDiskBackend := ⟨"p", [], ⟨5⟩, []⟩

/-- A disk backend with two resident entries and their files. -/
def dTwo : LMCLocalDiskBackend :=
  ⟨"", [(kA, "k1.pt"), (kB, "k2.pt")], ⟨5⟩,
   [("k1.pt", ⟨7, 3⟩), ("k2.pt", ⟨8, 2⟩)]⟩

theorem odLookup_odSet_self {K V : Type} [DecidableEq K]
    (l : List (K × V)) (k : K) (v : V) :
    odLookup (odSet l k v) k = some v := by
  induction l with
  | nil => simp [odSet, odLookup]
  | cons e rest ih =>
    rcases e with ⟨k0, w⟩
    by_cases h0 : k0 = k
    · subst h0
      simp [odSet, odLookup]
    · simp [odSet, odLookup, h0, ih]

theorem odLookup_odSet_ne {K V : Type} [DecidableEq K]
    (l : List (K × V)) (k k' : K) (v : V) (h : k' ≠ k) :
    odLookup (odSet l k v) k' = odLookup l k' := by
  induction l with
  | nil => simp [odSet, odLookup, Ne.symm h]
  | cons e rest ih =>
    rcases e with ⟨k0, w⟩
    by_cases h0 : k0 = k
    · subst h0
      simp only [odSet, if_pos rfl, odLookup]
      rw [if_neg (Ne.symm h), if_neg (Ne.symm h)]
    · simp only [odSet, if_neg h0, odLookup]
      by_cases h1 : k0 = k'
      · rw [if_pos h1, if_pos h1]
      · rw [if_neg h1, if_neg h1, ih]

theorem odSet_map_fst_of_some {K V : Type} [DecidableEq K]
    (l : List (K × V)) (k : K) (v w : V) (h : odLookup l k = some w) :
    (odSet l k v).map Prod.fst = l.map Prod.fst := by
  induction l with
  | nil => simp [odLookup] at h
  | cons e rest ih =>
    rcases e with ⟨k0, w0⟩
    by_cases h0 : k0 = k
    · simp [odSet, h0]
    · simp only [odLookup, if_neg h0] at h
      simp [odSet, h0, ih h]

theorem odLookup_odPop_ne {K V : Type} [DecidableEq K]
    (l : List (K × V)) (k k' : K) (h : k' ≠ k) :
    odLookup (odPop l k) k' = odLookup l k' := by
  induction l with
  | nil => simp [odPop]
  | cons e rest ih =>
    rcases e with ⟨k0, w⟩
    by_cases h0 : k0 = k
    · subst h0
      have h1 : odPop ((k0, w) :: rest) k0 = rest := by simp [odPop]
      rw [h1]
      simp [odLookup, Ne.symm h]
    · simp only [odPop, if_neg h0, odLookup]
      by_cases h1 : k0 = k'
      · rw [if_pos h1, if_pos h1]
      · rw [if_neg h1, if_neg h1, ih]

theorem odPop_map_fst_sublist {K V : Type} [DecidableEq K]
    (l : List (K × V)) (k : K) :
    ((odPop l k).map Prod.fst).Sublist (l.map Prod.fst) := by
  induction l with
  | nil => simp [odPop]
  | cons e rest ih =>
    rcases e with ⟨k0, w⟩
    by_cases h0 : k0 = k
    · simp only [odPop, if_pos h0, List.map_cons]
      exact List.sublist_cons_self k0 (rest.map Prod.fst)
    · simpa [odPop, h0] using ih.cons₂ k0

theorem odLookup_eq_none_iff {K V : Type} [DecidableEq K]
    (l : List (K × V)) (k : K) :
    odLookup l k = none ↔ k ∉ l.map Prod.fst := by
  induction l with
  | nil => simp [odLookup]
  | cons e rest ih =>
    rcases e with ⟨k0, w⟩
    by_cases h0 : k0 = k
    · subst h0
      simp [odLookup]
    · simp [odLookup, h0, ih, Ne.symm h0]

theorem odLookup_isSome_iff {K V : Type} [DecidableEq K]
    (l : List (K × V)) (k : K) :
    (odLookup l k).isSome ↔ k ∈ l.map Prod.fst := by
  rcases hl : odLookup l k with _ | v
  · simpa using (odLookup_eq_none_iff l k).mp hl
  · simp only [Option.isSome_some, true_iff]
    by_contra hk
    rw [← odLookup_eq_none_iff l k] at hk
    rw [hk] at hl
    exact Option.noConfusion hl

theorem odLookup_odPop_self {K V : Type} [DecidableEq K]
    (l : List (K × V)) (k : K) (h : (l.map Prod.fst).Nodup) :
    odLookup (odPop l k) k = none := by
  induction l with
  | nil => simp [odPop, odLookup]
  | cons e rest ih =>
    rcases e with ⟨k0, w⟩
    simp only [List.map_cons, List.nodup_cons] at h
    by_cases h0 : k0 = k
    · subst h0
      simpa [odPop, odLookup_eq_none_iff] using h.1
    · simp [odPop, odLookup, h0, ih h.2]

theorem odLookup_append {K V : Type} [DecidableEq K]
    (l1 l2 : List (K × V)) (k : K) :
    odLookup (l1 ++ l2) k =
      match odLookup l1 k with
      | some v => some v
      | none => odLookup l2 k := by
  induction l1 with
  | nil => simp [odLookup]
  | cons e rest ih =>
    rcases e with ⟨k0, w⟩
    by_cases h0 : k0 = k
    · simp [odLookup, h0]
    · simp [odLookup, h0, ih]

theorem odLookup_foldl_odPop {K V : Type} [DecidableEq K]
    (ek : List K) (l : List (K × V)) (k : K) (h : k ∉ ek) :
    odLookup (ek.foldl odPop l) k = odLookup l k := by
  induction ek generalizing l with
  | nil => simp
  | cons e rest ih =>
    simp only [List.mem_cons, not_or] at h
    rw [List.foldl_cons, ih _ h.2, odLookup_odPop_ne _ _ _ h.1]

theorem foldl_odPop_map_fst_sublist {K V : Type} [DecidableEq K]
    (ek : List K) (l : List (K × V)) :
    ((ek.foldl odPop l).map Prod.fst).Sublist (l.map Prod.fst) := by
  induction ek generalizing l with
  | nil => simp
  | cons e rest ih =>
    exact (ih (odPop l e)).trans (odPop_map_fst_sublist l e)

theorem odLookup_odMoveToEnd_ne {K V : Type} [DecidableEq K]
    (l : List (K × V)) (k k' : K) (h : k' ≠ k) :
    odLookup (odMoveToEnd l k) k' = odLookup l k' := by
  unfold odMoveToEnd
  rcases hl : odLookup l k with _ | v
  · rfl
  · rw [odLookup_append, odLookup_odPop_ne _ _ _ h]
    rcases h2 : odLookup l k' with _ | w
    · simp [odLookup, Ne.symm h]
    · rfl

theorem odLookup_odMoveToEnd_self {K V : Type} [DecidableEq K]
    (l : List (K × V)) (k : K) (hnd : (l.map Prod.fst).Nodup) :
    odLookup (odMoveToEnd l k) k = odLookup l k := by
  unfold odMoveToEnd
  rcases hl : odLookup l k with _ | v
  · exact hl
  · rw [odLookup_append, odLookup_odPop_self _ _ hnd]
    simp [odLookup]

theorem odMoveToEnd_map_fst_nodup {K V : Type} [DecidableEq K]
    (l : List (K × V)) (k : K) (hnd : (l.map Prod.fst).Nodup) :
    ((odMoveToEnd l k).map Prod.fst).Nodup := by
  unfold odMoveToEnd
  rcases hl : odLookup l k with _ | v
  · exact hnd
  · rw [List.map_append]
    refine List.Nodup.append (hnd.sublist (odPop_map_fst_sublist l k)) (by simp) ?_
    intro a ha hb
    simp only [List.map_cons, List.map_nil, List.mem_singleton] at hb
    subst hb
    rw [← odLookup_isSome_iff, odLookup_odPop_self _ _ hnd] at ha
    simp at ha

theorem evictKeysFrom_sublist {K V : Type} (vsize : V → Nat) (cap need : Nat)
    (l : List (K × V)) :
    (evictKeysFrom vsize cap need l).Sublist (l.map Prod.fst) := by
  induction l with
  | nil => simp [evictKeysFrom]
  | cons e rest ih =>
    rcases e with ⟨k, v⟩
    unfold evictKeysFrom
    by_cases h : totalSize vsize ((k, v) :: rest) + need ≤ cap
    · simp [h]
    · simpa [h] using ih.cons₂ k

theorem LMCLocalBackend.put_blocking_illegal (self : LMCLocalBackend)
    (key : CacheEngineKey) (v : Payload)
    (h : (self.evictor.update_on_put Payload.size self.dict v.size).2
           = PutStatus.ILLEGAL) :
    self.put_blocking key v = self := by
  unfold LMCLocalBackend.put_blocking
  rcases hu : self.evictor.update_on_put Payload.size self.dict v.size with ⟨ek, st⟩
  rw [hu] at h
  cases st
  · simp at h
  · rfl

theorem LMCLocalBackend.put_blocking_legal (self : LMCLocalBackend)
    (key : CacheEngineKey) (v : Payload) (ek : List CacheEngineKey)
    (h : self.evictor.update_on_put Payload.size self.dict v.size
           = (ek, PutStatus.LEGAL)) :
    self.put_blocking key v
      = { self with dict := odSet (ek.foldl odPop self.dict) key v } := by
  unfold LMCLocalBackend.put_blocking
  rw [h]

theorem LMCLocalBackend.put_nonblocking_illegal (self : LMCLocalBackend)
    (key : CacheEngineKey) (v : Payload) (hl : self.lockHeld = false)
    (h : (self.evictor.update_on_put Payload.size self.dict v.size).2
           = PutStatus.ILLEGAL) :
    self.put_nonblocking key v = some { self with lockHeld := true } := by
  unfold LMCLocalBackend.put_nonblocking
  rw [hl]
  rcases hu : self.evictor.update_on_put Payload.size self.dict v.size with ⟨ek, st⟩
  rw [hu] at h
  cases st
  · simp at h
  · simp

theorem LMCLocalBackend.put_nonblocking_dict (self : LMCLocalBackend)
    (key : CacheEngineKey) (v : Payload) (hl : self.lockHeld = false) :
    (self.put_nonblocking key v).map LMCLocalBackend.dict
      = some (self.put_blocking key v).dict := by
  unfold LMCLocalBackend.put_nonblocking LMCLocalBackend.put_blocking
  rw [hl]
  rcases hu : self.evictor.update_on_put Payload.size self.dict v.size with ⟨ek, st⟩
  cases st
  · simp
  · simp

theorem LMCLocalDiskBackend.disk_put_blocking_illegal (self : LMCLocalDiskBackend)
    (key : CacheEngineKey) (v : Payload)
    (h : (self.evictor.update_on_put (fun _ => 1) self.dict 1).2
           = PutStatus.ILLEGAL) :
    self.put_blocking key v = some self := by
  unfold LMCLocalDiskBackend.put_blocking
  rcases hu : self.evictor.update_on_put (fun _ => 1) self.dict 1 with ⟨ek, st⟩
  rw [hu] at h
  cases st
  · simp at h
  · rfl

theorem LMCLocalDiskBackend.disk_put_blocking_legal (self : LMCLocalDiskBackend)
    (key : CacheEngineKey) (v : Payload) (ek : List CacheEngineKey)
    (h : self.evictor.update_on_put (fun _ => 1) self.dict 1
           = (ek, PutStatus.LEGAL)) :
    self.put_blocking key v
      = (ek.foldlM LMCLocalDiskBackend.remove self).map
          (fun s => { s with files := odSet s.files (self.key_to_path key) v,
                             dict := odSet s.dict key (self.key_to_path key) }) := by
  unfold LMCLocalDiskBackend.put_blocking
  rw [h]

theorem LMCLocalDiskBackend.remove_some (self : LMCLocalDiskBackend)
    (key : CacheEngineKey) (s' : LMCLocalDiskBackend)
    (h : self.remove key = some s') :
    ∃ p, odLookup self.dict key = some p ∧ odLookup self.files p ≠ none ∧
      s' = { self with dict := odPop self.dict key,
                       files := odPop self.files p } := by
  revert h
  unfold LMCLocalDiskBackend.remove
  rcases hd : odLookup self.dict key with _ | p
  · intro h
    exact Option.noConfusion h
  · dsimp only
    rcases hf : odLookup self.files p with _ | w
    · intro h
      exact Option.noConfusion h
    · intro h
      dsimp only at h
      refine ⟨p, rfl, by simp [hf], ?_⟩
      exact ((Option.some.injEq _ _).mp h).symm

theorem LMCLocalDiskBackend.remove_of_present (self : LMCLocalDiskBackend)
    (key : CacheEngineKey) (p : String)
    (hd : odLookup self.dict key = some p) (hf : odLookup self.files p ≠ none) :
    self.remove key
      = some { self with dict := odPop self.dict key,
                         files := odPop self.files p } := by
  unfold LMCLocalDiskBackend.remove
  rw [hd]
  dsimp only
  rcases hfp : odLookup self.files p with _ | w
  · exact absurd hfp hf
  · rfl

theorem removeAll_dict (ek : List CacheEngineKey) (self s' : LMCLocalDiskBackend)
    (h : ek.foldlM LMCLocalDiskBackend.remove self = some s') :
    s'.dict = ek.foldl odPop self.dict ∧ s'.path = self.path ∧
      s'.evictor = self.evictor := by
  induction ek generalizing self with
  | nil =>
    simp only [List.foldlM_nil, pure, Option.some.injEq] at h
    subst h
    exact ⟨rfl, rfl, rfl⟩
  | cons e rest ih =>
    rw [List.foldlM_cons] at h
    rcases h1 : self.remove e with _ | s1
    · rw [h1] at h
      exact Option.noConfusion h
    · rw [h1] at h
      obtain ⟨p, hd, hf, hs1⟩ := LMCLocalDiskBackend.remove_some self e s1 h1
      obtain ⟨hdict, hpath, hev⟩ := ih s1 h
      subst hs1
      exact ⟨by simpa using hdict, hpath, hev⟩

theorem odSet_map_fst_of_none {K V : Type} [DecidableEq K]
    (l : List (K × V)) (k : K) (v : V) (h : odLookup l k = none) :
    (odSet l k v).map Prod.fst = l.map Prod.fst ++ [k] := by
  induction l with
  | nil => simp [odSet]
  | cons e rest ih =>
    rcases e with ⟨k0, w⟩
    by_cases h0 : k0 = k
    · rw [h0] at h
      simp [odLookup] at h
    · simp only [odLookup, if_neg h0] at h
      simp [odSet, h0, ih h]

theorem key_to_path_eq_of_path_eq (a b : LMCLocalDiskBackend)
    (h : a.path = b.path) (k : CacheEngineKey) :
    a.key_to_path k = b.key_to_path k := by
  unfold LMCLocalDiskBackend.key_to_path
  rw [h]

theorem remove_preserves_DiskInv (s : LMCLocalDiskBackend)
    (k : CacheEngineKey) (p : String)
    (inv : DiskInv s) (hd : odLookup s.dict k = some p) :
    s.remove k = some { s with dict := odPop s.dict k,
                               files := odPop s.files p } ∧
      DiskInv { s with dict := odPop s.dict k, files := odPop s.files p } := by
  obtain ⟨nd, nf, c2, c3, c4, c5⟩ := inv
  have hf := c3 k p hd
  refine ⟨LMCLocalDiskBackend.remove_of_present s k p hd hf, ?_, ?_, ?_, ?_, ?_, ?_⟩
  · exact nd.sublist (odPop_map_fst_sublist s.dict k)
  · exact nf.sublist (odPop_map_fst_sublist s.files p)
  · intro k1 p1 h1
    by_cases hk : k1 = k
    · subst hk
      rw [odLookup_odPop_self _ _ nd] at h1
      exact Option.noConfusion h1
    · rw [odLookup_odPop_ne _ _ _ hk] at h1
      exact c2 k1 p1 h1
  · intro k1 p1 h1
    by_cases hk : k1 = k
    · subst hk
      rw [odLookup_odPop_self _ _ nd] at h1
      exact Option.noConfusion h1
    · rw [odLookup_odPop_ne _ _ _ hk] at h1
      have hp1 : p1 ≠ p := by
        intro he
        subst he
        exact hk (c5 k1 k p1 h1 hd)
      rw [odLookup_odPop_ne _ _ _ hp1]
      exact c3 k1 p1 h1
  · intro p1 h1
    by_cases hp : p1 = p
    · subst hp
      rw [odLookup_odPop_self _ _ nf] at h1
      exact absurd rfl h1
    · rw [odLookup_odPop_ne _ _ _ hp] at h1
      obtain ⟨k1, hk1⟩ := c4 p1 h1
      have hkk : k1 ≠ k := by
        intro he
        subst he
        rw [hd] at hk1
        exact hp (((Option.some.injEq _ _).mp hk1).symm)
      refine ⟨k1, ?_⟩
      rw [odLookup_odPop_ne _ _ _ hkk]
      exact hk1
  · intro k1 k2 p1 h1 h2
    by_cases hk1 : k1 = k
    · subst hk1
      rw [odLookup_odPop_self _ _ nd] at h1
      exact Option.noConfusion h1
    · by_cases hk2 : k2 = k
      · subst hk2
        rw [odLookup_odPop_self _ _ nd] at h2
        exact Option.noConfusion h2
      · rw [odLookup_odPop_ne _ _ _ hk1] at h1
        rw [odLookup_odPop_ne _ _ _ hk2] at h2
        exact c5 k1 k2 p1 h1 h2

theorem removeAll_preserves_DiskInv (ek : List CacheEngineKey)
    (s : LMCLocalDiskBackend) (inv : DiskInv s)
    (hmem : ∀ kk ∈ ek, kk ∈ s.dict.map Prod.fst) (hnd : ek.Nodup) :
    ∃ s1, ek.foldlM LMCLocalDiskBackend.remove s = some s1 ∧ DiskInv s1 ∧
      s1.dict = ek.foldl odPop s.dict ∧ s1.path = s.path := by
  induction ek generalizing s with
  | nil => exact ⟨s, rfl, inv, rfl, rfl⟩
  | cons e rest ih =>
    have he : e ∈ s.dict.map Prod.fst := hmem e (List.mem_cons_self e rest)
    rw [← odLookup_isSome_iff] at he
    rcases hd : odLookup s.dict e with _ | p
    · rw [hd] at he
      simp at he
    · obtain ⟨hrem, inv1⟩ := remove_preserves_DiskInv s e p inv hd
      simp only [List.nodup_cons] at hnd
      have hmem1 : ∀ kk ∈ rest,
          kk ∈ ({ s with dict := odPop s.dict e,
                         files := odPop s.files p }).dict.map Prod.fst := by
        intro kk hkk
        have hne : kk ≠ e := fun hh => hnd.1 (hh ▸ hkk)
        have : kk ∈ s.dict.map Prod.fst := hmem kk (List.mem_cons_of_mem e hkk)
        rw [← odLookup_isSome_iff] at this ⊢
        rw [odLookup_odPop_ne _ _ _ hne]
        exact this
      obtain ⟨s1, hfold, inv2, hdict, hpath⟩ := ih _ inv1 hmem1 hnd.2
      refine ⟨s1, ?_, inv2, ?_, hpath⟩
      · rw [List.foldlM_cons, hrem]
        exact hfold
      · rw [hdict]
        simp

theorem put_preserves_DiskInv (s : LMCLocalDiskBackend) (k : CacheEngineKey)
    (v : Payload) (inv : DiskInv s)
    (hinj : ∀ k', k' ∈ s.dict.map Prod.fst →
              s.key_to_path k' = s.key_to_path k → k' = k) :
    ∃ s', s.put_blocking k v = some s' ∧ DiskInv s' ∧ s'.path = s.path := by
  rcases hu : s.evictor.update_on_put (fun _ => 1) s.dict 1 with ⟨ek, st⟩
  cases st with
  | ILLEGAL =>
    refine ⟨s, ?_, inv, rfl⟩
    exact LMCLocalDiskBackend.disk_put_blocking_illegal s k v (by rw [hu])
  | LEGAL =>
    have hekeq : ek = evictKeysFrom (fun _ => 1) s.evictor.capacity 1 s.dict := by
      unfold LRUEvictor.update_on_put at hu
      by_cases hc : s.evictor.capacity < 1
      · rw [if_pos hc] at hu
        simp at hu
      · rw [if_neg hc] at hu
        have h1 := congrArg Prod.fst hu
        simpa using h1.symm
    have hek : ek.Sublist (s.dict.map Prod.fst) := by
      rw [hekeq]
      exact evictKeysFrom_sublist _ _ _ _
    have hmem : ∀ kk ∈ ek, kk ∈ s.dict.map Prod.fst := fun kk hkk => hek.subset hkk
    have hndek : ek.Nodup := inv.1.sublist hek
    obtain ⟨s1, hfold, inv1, hdict1, hpath1⟩ :=
      removeAll_preserves_DiskInv ek s inv hmem hndek
    obtain ⟨nd1, nf1, d2, d3, d4, d5⟩ := inv1
    have hkp : ∀ k', s1.key_to_path k' = s.key_to_path k' :=
      fun k' => key_to_path_eq_of_path_eq s1 s hpath1 k'
    have hsub : ∀ k', k' ∈ s1.dict.map Prod.fst → k' ∈ s.dict.map Prod.fst := by
      intro k' h'
      rw [hdict1] at h'
      exact (foldl_odPop_map_fst_sublist ek s.dict).subset h'
    refine ⟨{ s1 with files := odSet s1.files (s.key_to_path k) v,
                      dict := odSet s1.dict k (s.key_to_path k) }, ?_, ?_, hpath1⟩
    · rw [LMCLocalDiskBackend.disk_put_blocking_legal s k v ek hu, hfold]
      rfl
    · have hup : ∀ k',
          ({ s1 with files := odSet s1.files (s.key_to_path k) v,
                     dict := odSet s1.dict k (s.key_to_path k) }
            : LMCLocalDiskBackend).key_to_path k' = s.key_to_path k' := by
        intro k'
        unfold LMCLocalDiskBackend.key_to_path
        dsimp only
        rw [hpath1]
      refine ⟨?_, ?_, ?_, ?_, ?_, ?_⟩
      · rcases hk1 : odLookup s1.dict k with _ | w
        · rw [odSet_map_fst_of_none _ _ _ hk1]
          refine List.Nodup.append nd1 (by simp) ?_
          intro a ha hb
          simp only [List.mem_singleton] at hb
          subst hb
          rw [← odLookup_isSome_iff, hk1] at ha
          simp at ha
        · rw [odSet_map_fst_of_some _ _ _ _ hk1]
          exact nd1
      · rcases hf1 : odLookup s1.files (s.key_to_path k) with _ | w
        · rw [odSet_map_fst_of_none _ _ _ hf1]
          refine List.Nodup.append nf1 (by simp) ?_
          intro a ha hb
          simp only [List.mem_singleton] at hb
          subst hb
          rw [← odLookup_isSome_iff, hf1] at ha
          simp at ha
        · rw [odSet_map_fst_of_some _ _ _ _ hf1]
          exact nf1
      · intro k1 p1 h1
        rw [hup k1]
        by_cases hk : k1 = k
        · subst hk
          rw [odLookup_odSet_self] at h1
          exact (((Option.some.injEq _ _).mp h1)).symm
        · rw [odLookup_odSet_ne _ _ _ _ hk] at h1
          rw [d2 k1 p1 h1]
          exact hkp k1
      · intro k1 p1 h1
        by_cases hp1 : p1 = s.key_to_path k
        · rw [hp1, odLookup_odSet_self]
          simp
        · rw [odLookup_odSet_ne _ _ _ _ hp1]
          have hk1 : k1 ≠ k := by
            intro he
            subst he
            rw [odLookup_odSet_self] at h1
            exact hp1 (((Option.some.injEq _ _).mp h1).symm)
          rw [odLookup_odSet_ne _ _ _ _ hk1] at h1
          exact d3 k1 p1 h1
      · intro p1 h1
        by_cases hp1 : p1 = s.key_to_path k
        · refine ⟨k, ?_⟩
          rw [hp1, odLookup_odSet_self]
        · rw [odLookup_odSet_ne _ _ _ _ hp1] at h1
          obtain ⟨k1, hk1⟩ := d4 p1 h1
          have hkk : k1 ≠ k := by
            intro he
            subst he
            exact hp1 ((d2 k1 p1 hk1).trans (hkp k1))
          refine ⟨k1, ?_⟩
          rw [odLookup_odSet_ne _ _ _ _ hkk]
          exact hk1
      · intro k1 k2 p1 h1 h2
        by_cases hk1 : k1 = k
        · by_cases hk2 : k2 = k
          · rw [hk1, hk2]
          · rw [hk1, odLookup_odSet_self] at h1
            have hp1 : p1 = s.key_to_path k := ((Option.some.injEq _ _).mp h1).symm
            rw [odLookup_odSet_ne _ _ _ _ hk2] at h2
            have hmem2 : k2 ∈ s1.dict.map Prod.fst :=
              (odLookup_isSome_iff s1.dict k2).mp (by rw [h2]; rfl)
            have : s.key_to_path k2 = s.key_to_path k := by
              rw [← hkp k2, ← (d2 k2 p1 h2), hp1]
            exact absurd (hinj k2 (hsub k2 hmem2) this) hk2
        · by_cases hk2 : k2 = k
          · rw [hk2, odLookup_odSet_self] at h2
            have hp1 : p1 = s.key_to_path k := ((Option.some.injEq _ _).mp h2).symm
            rw [odLookup_odSet_ne _ _ _ _ hk1] at h1
            have hmem1 : k1 ∈ s1.dict.map Prod.fst :=
              (odLookup_isSome_iff s1.dict k1).mp (by rw [h1]; rfl)
            have : s.key_to_path k1 = s.key_to_path k := by
              rw [← hkp k1, ← (d2 k1 p1 h1), hp1]
            exact absurd (hinj k1 (hsub k1 hmem1) this) hk1
          · rw [odLookup_odSet_ne _ _ _ _ hk1] at h1
            rw [odLookup_odSet_ne _ _ _ _ hk2] at h2
            exact d5 k1 k2 p1 h1 h2

theorem get_hit_DiskInv (s : LMCLocalDiskBackend) (k : CacheEngineKey)
    (p : String) (inv : DiskInv s) (hd : odLookup s.dict k = some p) :
    ∃ v, odLookup s.files p = some v ∧
      s.get k = some (some v, { s with dict := odMoveToEnd s.dict k }) ∧
      DiskInv { s with dict := odMoveToEnd s.dict k } := by
  obtain ⟨nd, nf, c2, c3, c4, c5⟩ := inv
  have hf := c3 k p hd
  rcases hfv : odLookup s.files p with _ | v
  · exact absurd hfv hf
  · have hmv : ∀ k1, odLookup (odMoveToEnd s.dict k) k1 = odLookup s.dict k1 := by
      intro k1
      by_cases hk : k1 = k
      · subst hk
        exact odLookup_odMoveToEnd_self s.dict k1 nd
      · exact odLookup_odMoveToEnd_ne s.dict k k1 hk
    refine ⟨v, rfl, ?_, ?_⟩
    · unfold LMCLocalDiskBackend.get LRUEvictor.update_on_get
      rw [hd]
      dsimp only
      rw [hfv]
    · refine ⟨odMoveToEnd_map_fst_nodup s.dict k nd, nf, ?_, ?_, ?_, ?_⟩
      · intro k1 p1 h1
        rw [hmv k1] at h1
        exact c2 k1 p1 h1
      · intro k1 p1 h1
        rw [hmv k1] at h1
        exact c3 k1 p1 h1
      · intro p1 h1
        obtain ⟨k1, hk1⟩ := c4 p1 h1
        refine ⟨k1, ?_⟩
        rw [hmv k1]
        exact hk1
      · intro k1 k2 p1 h1 h2
        rw [hmv k1] at h1
        rw [hmv k2] at h2
        exact c5 k1 k2 p1 h1 h2

theorem mapSlash_inj (l1 l2 : List Char) (h1 : '-' ∉ l1) (h2 : '-' ∉ l2)
    (h : l1.map (fun c => if c = '/' then '-' else c)
           = l2.map (fun c => if c = '/' then '-' else c)) : l1 = l2 := by
  induction l1 generalizing l2 with
  | nil =>
    cases l2 with
    | nil => rfl
    | cons b t2 => simp at h
  | cons a t1 ih =>
    cases l2 with
    | nil => simp at h
    | cons b t2 =>
      simp only [List.map_cons, List.cons.injEq] at h
      simp only [List.mem_cons, not_or] at h1 h2
      obtain ⟨hab, ht⟩ := h
      have hhead : a = b := by
        by_cases ha : a = '/'
        · by_cases hb : b = '/'
          · rw [ha, hb]
          · rw [if_pos ha, if_neg hb] at hab
            exact absurd hab h2.1
        · by_cases hb : b = '/'
          · rw [if_neg ha, if_pos hb] at hab
            exact absurd hab.symm h1.1
          · rw [if_neg ha, if_neg hb] at hab
            exact hab
      rw [hhead, ih t2 h1.2 h2.2 ht]

theorem sanitize_no_slash (s : String) : ∀ c ∈ (sanitize s).data, c ≠ '/' := by
  intro c hc
  have hc' : c ∈ s.data.map (fun c => if c = '/' then '-' else c) := hc
  obtain ⟨a, _, hfa⟩ := List.mem_map.mp hc'
  rw [← hfa]
  by_cases ha : a = '/'
  · rw [if_pos ha]
    decide
  · rw [if_neg ha]
    exact ha

theorem sanitize_inj_of_no_dash (s1 s2 : String)
    (h1 : '-' ∉ s1.data) (h2 : '-' ∉ s2.data)
    (h : sanitize s1 = sanitize s2) : s1 = s2 := by
  obtain ⟨l1⟩ := s1
  obtain ⟨l2⟩ := s2
  have hmap := congrArg String.data h
  have hl := mapSlash_inj l1 l2 h1 h2 hmap
  rw [hl]

theorem DiskInv_sEmpty : DiskInv sEmpty := by
  refine ⟨by simp [sEmpty], by simp [sEmpty], ?_, ?_, ?_, ?_⟩
  · intro k p h
    simp [sEmpty, odLookup] at h
  · intro k p h
    simp [sEmpty, odLookup] at h
  · intro p h
    simp [sEmpty, odLookup] at h
  · intro k1 k2 p h1 h2
    simp [sEmpty, odLookup] at h1

theorem DiskInv_sOne : DiskInv sOne := by
  obtain ⟨s', hput, hinv, _⟩ :=
    put_preserves_DiskInv sEmpty kA ⟨7, 3⟩ DiskInv_sEmpty
      (by intro k' h _; simp [sEmpty] at h)
  have heq : sEmpty.put_blocking kA ⟨7, 3⟩ = some sOne := by decide
  rw [heq] at hput
  obtain rfl := (Option.some.injEq _ _).mp hput
  exact hinv

/-- C1: on both backends, a blocking put whose admission decision is
Rejected (`PutStatus.ILLEGAL`) returns without error and leaves the
whole backend state — catalog, eviction (recency) state and, for the
disk backend, the files on disk — exactly as before the call. -/
theorem rejected_put_leaves_state_unchanged :
    (∀ (b : LMCLocalBackend) (k : CacheEngineKey) (v : Payload),
      (b.evictor.update_on_put Payload.size b.dict v.size).2 = PutStatus.ILLEGAL →
      b.put_blocking k v = b) ∧
    (∀ (d : LMCLocalDiskBackend) (k : CacheEngineKey) (v : Payload),
      (d.evictor.update_on_put (fun _ => 1) d.dict 1).2 = PutStatus.ILLEGAL →
      d.put_blocking k v = some d) :=
  ⟨fun b k v h => LMCLocalBackend.put_blocking_illegal b k v h,
   fun d k v h => LMCLocalDiskBackend.disk_put_blocking_illegal d k v h⟩

/-- Witness for C1: a size-3 payload against byte capacity 2 (memory)
and any payload against item capacity 0 (disk) are rejected and change
nothing. -/
theorem rejected_put_leaves_state_unchanged_witness :
    bTiny.put_blocking kA ⟨7, 3⟩ = bTiny ∧
      dZero.put_blocking kA ⟨7, 3⟩ = some dZero :=
  ⟨rejected_put_leaves_state_unchanged.1 bTiny kA ⟨7, 3⟩ (by decide),
   rejected_put_leaves_state_unchanged.2 dZero kA ⟨7, 3⟩ (by decide)⟩

/-- C2: on both backends, an admitted blocking put of `(k, v)` followed
immediately by `get k` returns a payload content-equal to `v`, never
`None`. -/
theorem admitted_put_then_get_returns_payload :
    (∀ (b : LMCLocalBackend) (k : CacheEngineKey) (v : Payload),
      b.lockHeld = false →
      (b.evictor.update_on_put Payload.size b.dict v.size).2 = PutStatus.LEGAL →
      ((b.put_blocking k v).get k).map Prod.fst = some (some v)) ∧
    (∀ (d : LMCLocalDiskBackend) (k : CacheEngineKey) (v : Payload)
       (s' : LMCLocalDiskBackend),
      (d.evictor.update_on_put (fun _ => 1) d.dict 1).2 = PutStatus.LEGAL →
      d.put_blocking k v = some s' →
      (s'.get k).map Prod.fst = some (some v)) := by
  constructor
  · intro b k v hl hst
    rcases hu : b.evictor.update_on_put Payload.size b.dict v.size with ⟨ek, st⟩
    cases st with
    | ILLEGAL =>
      rw [hu] at hst
      exact absurd hst (by simp)
    | LEGAL =>
      rw [LMCLocalBackend.put_blocking_legal b k v ek hu]
      unfold LMCLocalBackend.get
      dsimp only
      rw [odLookup_odSet_self, hl]
      rfl
  · intro d k v s' hst hput
    rcases hu : d.evictor.update_on_put (fun _ => 1) d.dict 1 with ⟨ek, st⟩
    cases st with
    | ILLEGAL =>
      rw [hu] at hst
      exact absurd hst (by simp)
    | LEGAL =>
      rw [LMCLocalDiskBackend.disk_put_blocking_legal d k v ek hu] at hput
      rcases hfold : ek.foldlM LMCLocalDiskBackend.remove d with _ | s1
      · rw [hfold] at hput
        exact Option.noConfusion hput
      · rw [hfold] at hput
        have hs' : s' = { s1 with
            files := odSet s1.files (d.key_to_path k) v,
            dict := odSet s1.dict k (d.key_to_path k) } :=
          ((Option.some.injEq _ _).mp hput).symm
        subst hs'
        unfold LMCLocalDiskBackend.get LRUEvictor.update_on_get
        dsimp only
        rw [odLookup_odSet_self]
        dsimp only
        rw [odLookup_odSet_self]
        rfl

/-- Witness for C2: a concrete admitted put then get on each backend. -/
theorem admitted_put_then_get_returns_payload_witness :
    ((bEmpty.put_blocking kA ⟨7, 3⟩).get kA).map Prod.fst = some (some ⟨7, 3⟩) ∧
      (sOne.get kA).map Prod.fst = some (some ⟨7, 3⟩) :=
  ⟨admitted_put_then_get_returns_payload.1 bEmpty kA ⟨7, 3⟩ rfl (by decide),
   admitted_put_then_get_returns_payload.2 sEmpty kA ⟨7, 3⟩ sOne (by decide) (by decide)⟩

/-- C4 (code bug): the memory backend's blocking put path runs the whole
admission sequence — decision, evictions, insertion — without ever
acquiring `update_lock` (`lockHeld` is untouched on every input, and a
concrete admitted put mutates the catalog while the lock stays free);
moreover the cited non-blocking path returns from a rejected put while
still holding the lock, so the mutex is not released on every exit
path.  This contradicts the claim, which states the spec's intended
discipline. -/
theorem memory_put_mutex_discipline_broken :
    (∀ (b : LMCLocalBackend) (k : CacheEngineKey) (v : Payload),
      (b.put_blocking k v).lockHeld = b.lockHeld) ∧
    bEmpty.put_blocking kA ⟨7, 3⟩ = ⟨[(kA, ⟨7, 3⟩)], ⟨10⟩, false⟩ ∧
    bTiny.put_nonblocking kA ⟨7, 3⟩ = some ⟨[], ⟨2⟩, true⟩ := by
  refine ⟨?_, by decide, by decide⟩
  intro b k v
  unfold LMCLocalBackend.put_blocking
  rcases hu : b.evictor.update_on_put Payload.size b.dict v.size with ⟨ek, st⟩
  cases st
  · rfl
  · rfl

/-- C5 (code bug): a rejected queued put leaves the worker holding the
mutex, so the worker deadlocks on the next queued item: draining a queue
holding a rejected item then an admitted item never finishes (and the
admitted item is never applied), while the same two puts on the blocking
path from the same state produce the catalog holding the admitted
item. -/
theorem queued_rejected_put_deadlocks_worker :
    bTiny.put_worker
        [QItem.item kA ⟨7, 3⟩, QItem.item kB ⟨5, 1⟩, QItem.endSignal] = none ∧
      (bTiny.put_blocking kA ⟨7, 3⟩).put_blocking kB ⟨5, 1⟩
        = ⟨[(kB, ⟨5, 1⟩)], ⟨2⟩, false⟩ := by decide

/-- C7 (code bug): `close` on the memory backend never returns when a
rejected put sits in the queue before other items (the worker deadlocks
on the leaked mutex and the later item is never applied), while the disk
backend's close drains both queued items in submission order and a
second close of the stopped backend is a no-op. -/
theorem close_after_rejected_queued_put_never_returns :
    MemBackendProc.close
        ⟨bTiny, [QItem.item kA ⟨7, 3⟩, QItem.item kB ⟨5, 1⟩], true⟩ = none ∧
      DiskBackendProc.close
          ⟨sEmpty, [QItem.item kA ⟨7, 3⟩, QItem.item kB ⟨5, 1⟩], true⟩
        = some ⟨⟨"", [(kA, "k1.pt"), (kB, "k2.pt")], ⟨5⟩,
                 [("k1.pt", ⟨7, 3⟩), ("k2.pt", ⟨5, 1⟩)]⟩, [], false⟩ ∧
      DiskBackendProc.close
          ⟨⟨"", [(kA, "k1.pt"), (kB, "k2.pt")], ⟨5⟩,
            [("k1.pt", ⟨7, 3⟩), ("k2.pt", ⟨5, 1⟩)]⟩, [], false⟩
        = some ⟨⟨"", [(kA, "k1.pt"), (kB, "k2.pt")], ⟨5⟩,
                 [("k1.pt", ⟨7, 3⟩), ("k2.pt", ⟨5, 1⟩)]⟩, [], false⟩ := by decide

/-- C6 counterexample: two distinct keys whose canonical strings differ
only by "/" versus "-" map to the same file path, and the path is built
by direct concatenation, not in the `<base_path>/<name>` form with a
separator. -/
theorem key_to_path_collision_counterexample :
    dP.key_to_path kSlash = "pa-b.pt" ∧
      dP.key_to_path kDash = "pa-b.pt" ∧
      kSlash ≠ kDash ∧
      "pa-b.pt" ≠ "p" ++ "/" ++ "a-b" ++ ".pt" := by decide

/-- C6 (amended): the disk path is the direct concatenation of the base
path, the sanitized canonical key string (every "/" replaced by "-",
hence containing no separator) and ".pt"; sanitization is injective only
on canonical strings containing no hyphen, so only such distinct keys
are guaranteed distinct filenames. -/
theorem key_to_path_flat_and_injective_on_dashfree :
    (∀ (d : LMCLocalDiskBackend) (k : CacheEngineKey),
      d.key_to_path k = d.path ++ sanitize k.to_string ++ ".pt") ∧
    (∀ s : String, ∀ c ∈ (sanitize s).data, c ≠ '/') ∧
    (∀ s1 s2 : String, '-' ∉ s1.data → '-' ∉ s2.data →
      sanitize s1 = sanitize s2 → s1 = s2) :=
  ⟨fun _ _ => rfl, sanitize_no_slash, sanitize_inj_of_no_dash⟩

/-- Witness for the amended C6 statement at concrete inputs. -/
theorem key_to_path_flat_and_injective_on_dashfree_witness :
    dP.key_to_path kA = dP.path ++ sanitize kA.to_string ++ ".pt" ∧
      ('x' : Char) ≠ '/' ∧
      ("x/y" : String) = "x/y" :=
  ⟨key_to_path_flat_and_injective_on_dashfree.1 dP kA,
   key_to_path_flat_and_injective_on_dashfree.2.1 "x" 'x' (by decide),
   key_to_path_flat_and_injective_on_dashfree.2.2 "x/y" "x/y"
     (by decide) (by decide) rfl⟩

/-- C3 counterexample: the catalog-iff-file invariant fails as stated.
Two distinct keys collide on the same file path; after putting both and
removing the first, the second key is still in the catalog but its
backing file is gone, and its `get` raises instead of returning data. -/
theorem disk_catalog_file_invariant_counterexample :
    ((sEmpty.put_blocking kSlash ⟨1, 1⟩).bind
        (fun s => s.put_blocking kDash ⟨2, 1⟩)).bind
      (fun s => s.remove kSlash)
        = some ⟨"", [(kDash, "a-b.pt")], ⟨5⟩, []⟩ ∧
      odContains ([(kDash, "a-b.pt")] : List (CacheEngineKey × String)) kDash
        = true ∧
      (⟨"", [(kDash, "a-b.pt")], ⟨5⟩, []⟩ : LMCLocalDiskBackend).get kDash
        = none := by decide

/-- C3 (amended): provided no two live keys share a derived path (for
example when canonical key strings are hyphen-free), the disk backend
maintains the catalog-iff-file invariant `DiskInv`: an admitted
`put_blocking` succeeds and preserves it (file written before the
catalog entry), `remove` of a present key succeeds, erasing the catalog
entry and deleting exactly its file, and `get` of a present key finds a
readable file and preserves the invariant. -/
theorem disk_catalog_file_invariant_preserved :
    (∀ (s : LMCLocalDiskBackend) (k : CacheEngineKey) (v : Payload),
      DiskInv s →
      (∀ k', k' ∈ s.dict.map Prod.fst →
        s.key_to_path k' = s.key_to_path k → k' = k) →
      ∃ s', s.put_blocking k v = some s' ∧ DiskInv s' ∧ s'.path = s.path) ∧
    (∀ (s : LMCLocalDiskBackend) (k : CacheEngineKey) (p : String),
      DiskInv s → odLookup s.dict k = some p →
      s.remove k = some { s with dict := odPop s.dict k,
                                 files := odPop s.files p } ∧
        DiskInv { s with dict := odPop s.dict k, files := odPop s.files p }) ∧
    (∀ (s : LMCLocalDiskBackend) (k : CacheEngineKey) (p : String),
      DiskInv s → odLookup s.dict k = some p →
      ∃ v, odLookup s.files p = some v ∧
        s.get k = some (some v, { s with dict := odMoveToEnd s.dict k }) ∧
        DiskInv { s with dict := odMoveToEnd s.dict k }) :=
  ⟨fun s k v inv hinj => put_preserves_DiskInv s k v inv hinj,
   fun s k p inv hd => remove_preserves_DiskInv s k p inv hd,
   fun s k p inv hd => get_hit_DiskInv s k p inv hd⟩

/-- Witness for the amended C3 statement at concrete states. -/
theorem disk_catalog_file_invariant_preserved_witness :
    (∃ s', sEmpty.put_blocking kA ⟨7, 3⟩ = some s' ∧ DiskInv s' ∧
       s'.path = sEmpty.path) ∧
      (sOne.remove kA = some { sOne with dict := odPop sOne.dict kA,
                                         files := odPop sOne.files "k1.pt" } ∧
        DiskInv { sOne with dict := odPop sOne.dict kA,
                            files := odPop sOne.files "k1.pt" }) ∧
      (∃ v, odLookup sOne.files "k1.pt" = some v ∧
        sOne.get kA = some (some v, { sOne with dict := odMoveToEnd sOne.dict kA }) ∧
        DiskInv { sOne with dict := odMoveToEnd sOne.dict kA }) :=
  ⟨disk_catalog_file_invariant_preserved.1 sEmpty kA ⟨7, 3⟩ DiskInv_sEmpty
     (by intro k' h _; simp [sEmpty] at h),
   disk_catalog_file_invariant_preserved.2.1 sOne kA "k1.pt" DiskInv_sOne
     (by decide),
   disk_catalog_file_invariant_preserved.2.2 sOne kA "k1.pt" DiskInv_sOne
     (by decide)⟩

/-- C8: once `get_or_create` has succeeded for an id, every later
`get_or_create` for the same id returns the very same instance and the
same registry for every policy name — supported or not — without error,
and `get` (a pure lookup that never creates) returns that instance. -/
theorem get_or_create_returns_existing_instance (st : BuilderState)
    (instance_id p1 : String) (c : BaseLocalCompactor) (st' : BuilderState)
    (h : LMCacheCompactorBuilder.get_or_create st instance_id p1
           = Except.ok (c, st')) :
    ∀ p2, LMCacheCompactorBuilder.get_or_create st' instance_id p2
            = Except.ok (c, st') ∧
      LMCacheCompactorBuilder.get st' instance_id = some c := by
  have hlook : odLookup st'.instances instance_id = some c := by
    revert h
    unfold LMCacheCompactorBuilder.get_or_create
    rcases hl : odLookup st.instances instance_id with _ | c0
    · by_cases hp : p1 = "H2O"
      · rw [if_pos hp]
        intro h
        simp only [Except.ok.injEq, Prod.mk.injEq] at h
        obtain ⟨hc, hst⟩ := h
        subst hc
        subst hst
        exact odLookup_odSet_self _ _ _
      · by_cases hps : p1 = "Sink"
        · rw [if_neg hp, if_pos hps]
          intro h
          simp only [Except.ok.injEq, Prod.mk.injEq] at h
          obtain ⟨hc, hst⟩ := h
          subst hc
          subst hst
          exact odLookup_odSet_self _ _ _
        · rw [if_neg hp, if_neg hps]
          intro h
          exact Except.noConfusion h
    · intro h
      simp only [Except.ok.injEq, Prod.mk.injEq] at h
      obtain ⟨hc, hst⟩ := h
      subst hc
      subst hst
      exact hl
  intro p2
  constructor
  · unfold LMCacheCompactorBuilder.get_or_create
    rw [hlook]
  · unfold LMCacheCompactorBuilder.get
    exact hlook

/-- Witness for C8: register "x" as H2O, then ask again with the
unsupported name "Other" and with `get`. -/
theorem get_or_create_returns_existing_instance_witness :
    (LMCacheCompactorBuilder.get_or_create
        ⟨[("x", ⟨CompactorKind.h2o, 0⟩)], 1⟩ "x" "Other"
      = Except.ok (⟨CompactorKind.h2o, 0⟩,
          ⟨[("x", ⟨CompactorKind.h2o, 0⟩)], 1⟩)) ∧
      LMCacheCompactorBuilder.get ⟨[("x", ⟨CompactorKind.h2o, 0⟩)], 1⟩ "x"
        = some ⟨CompactorKind.h2o, 0⟩ :=
  get_or_create_returns_existing_instance ⟨[], 0⟩ "x" "H2O"
    ⟨CompactorKind.h2o, 0⟩ ⟨[("x", ⟨CompactorKind.h2o, 0⟩)], 1⟩ rfl "Other"

/-- C9: for an unregistered id and a policy name that is neither "H2O"
nor "Sink", `get_or_create` raises an error that reaches the caller
before any registry mutation, and `get` for that id returns none. -/
theorem get_or_create_unsupported_policy_raises (st : BuilderState)
    (instance_id p : String)
    (h1 : odLookup st.instances instance_id = none)
    (h2 : p ≠ "H2O") (h3 : p ≠ "Sink") :
    LMCacheCompactorBuilder.get_or_create st instance_id p
        = Except.error ("Compactor type " ++ p ++ " not supported") ∧
      LMCacheCompactorBuilder.get st instance_id = none := by
  constructor
  · unfold LMCacheCompactorBuilder.get_or_create
    rw [h1]
    dsimp only
    rw [if_neg h2, if_neg h3]
  · unfold LMCacheCompactorBuilder.get
    exact h1

/-- Witness for C9 on the empty registry with policy name "LRU". -/
theorem get_or_create_unsupported_policy_raises_witness :
    LMCacheCompactorBuilder.get_or_create ⟨[], 0⟩ "x" "LRU"
        = Except.error ("Compactor type " ++ "LRU" ++ " not supported") ∧
      LMCacheCompactorBuilder.get (⟨[], 0⟩ : BuilderState) "x" = none :=
  get_or_create_unsupported_policy_raises ⟨[], 0⟩ "x" "LRU" rfl
    (by decide) (by decide)

/-- C10: on both backends, an admitted put of a key already present in
the catalog, whose eviction list does not contain that key, overwrites
only the stored payload/location in place: the catalog key order equals
the post-eviction key order (so the key keeps its position and is not
moved to the most-recently-used end, unlike a get), the key maps to the
new payload/path, and every other surviving entry is unchanged. -/
theorem reput_does_not_refresh_recency :
    (∀ (b : LMCLocalBackend) (k : CacheEngineKey) (v' : Payload)
       (ek : List CacheEngineKey),
      b.evictor.update_on_put Payload.size b.dict v'.size
          = (ek, PutStatus.LEGAL) →
      k ∉ ek → odContains b.dict k = true →
      ((b.put_blocking k v').dict.map Prod.fst
          = (ek.foldl odPop b.dict).map Prod.fst ∧
        odLookup (b.put_blocking k v').dict k = some v' ∧
        ∀ k', k' ≠ k → odLookup (b.put_blocking k v').dict k'
          = odLookup (ek.foldl odPop b.dict) k')) ∧
    (∀ (d : LMCLocalDiskBackend) (k : CacheEngineKey) (v' : Payload)
       (ek : List CacheEngineKey) (s' : LMCLocalDiskBackend),
      d.evictor.update_on_put (fun _ => 1) d.dict 1 = (ek, PutStatus.LEGAL) →
      k ∉ ek → odContains d.dict k = true →
      d.put_blocking k v' = some s' →
      (s'.dict.map Prod.fst = (ek.foldl odPop d.dict).map Prod.fst ∧
        odLookup s'.dict k = some (d.key_to_path k) ∧
        ∀ k', k' ≠ k → odLookup s'.dict k'
          = odLookup (ek.foldl odPop d.dict) k')) := by
  constructor
  · intro b k v' ek hu hek hcont
    have hb := LMCLocalBackend.put_blocking_legal b k v' ek hu
    have hlook : odLookup (ek.foldl odPop b.dict) k = odLookup b.dict k :=
      odLookup_foldl_odPop ek b.dict k hek
    have hsome : (odLookup b.dict k).isSome = true := hcont
    rcases hw : odLookup b.dict k with _ | w
    · rw [hw] at hsome
      simp at hsome
    · rw [hb]
      dsimp only
      have hw1 : odLookup (ek.foldl odPop b.dict) k = some w := by
        rw [hlook, hw]
      refine ⟨odSet_map_fst_of_some _ _ _ _ hw1, odLookup_odSet_self _ _ _, ?_⟩
      intro k' hk'
      exact odLookup_odSet_ne _ _ _ _ hk'
  · intro d k v' ek s' hu hek hcont hput
    rw [LMCLocalDiskBackend.disk_put_blocking_legal d k v' ek hu] at hput
    rcases hfold : ek.foldlM LMCLocalDiskBackend.remove d with _ | s1
    · rw [hfold] at hput
      exact Option.noConfusion hput
    · rw [hfold] at hput
      obtain ⟨hdict1, hpath1, _⟩ := removeAll_dict ek d s1 hfold
      have hs' : s' = { s1 with
          files := odSet s1.files (d.key_to_path k) v',
          dict := odSet s1.dict k (d.key_to_path k) } :=
        ((Option.some.injEq _ _).mp hput).symm
      subst hs'
      have hsome : (odLookup d.dict k).isSome = true := hcont
      rcases hw : odLookup d.dict k with _ | w
      · rw [hw] at hsome
        simp at hsome
      · have hw1 : odLookup s1.dict k = some w := by
          rw [hdict1, odLookup_foldl_odPop ek d.dict k hek, hw]
        dsimp only
        refine ⟨?_, odLookup_odSet_self _ _ _, ?_⟩
        · rw [odSet_map_fst_of_some _ _ _ _ hw1, hdict1]
        · intro k' hk'
          rw [odLookup_odSet_ne _ _ _ _ hk', hdict1]

/-- Witness for C10: re-put of the older of two resident keys with no
evictions leaves it in the oldest position on both backends. -/
theorem reput_does_not_refresh_recency_witness :
    ((bTwo.put_blocking kA ⟨9, 1⟩).dict.map Prod.fst
        = (([] : List CacheEngineKey).foldl odPop bTwo.dict).map Prod.fst) ∧
      odLookup (bTwo.put_blocking kA ⟨9, 1⟩).dict kA = some ⟨9, 1⟩ ∧
      odLookup (bTwo.put_blocking kA ⟨9, 1⟩).dict kB
        = odLookup (([] : List CacheEngineKey).foldl odPop bTwo.dict) kB ∧
      ((⟨"", [(kA, "k1.pt"), (kB, "k2.pt")], ⟨5⟩,
          [("k1.pt", ⟨9, 1⟩), ("k2.pt", ⟨8, 2⟩)]⟩
            : LMCLocalDiskBackend).dict.map Prod.fst
        = (([] : List CacheEngineKey).foldl odPop dTwo.dict).map Prod.fst) ∧
      odLookup (⟨"", [(kA, "k1.pt"), (kB, "k2.pt")], ⟨5⟩,
          [("k1.pt", ⟨9, 1⟩), ("k2.pt", ⟨8, 2⟩)]⟩
            : LMCLocalDiskBackend).dict kA = some (dTwo.key_to_path kA) ∧
      odLookup (⟨"", [(kA, "k1.pt"), (kB, "k2.pt")], ⟨5⟩,
          [("k1.pt", ⟨9, 1⟩), ("k2.pt", ⟨8, 2⟩)]⟩
            : LMCLocalDiskBackend).dict kB
        = odLookup (([] : List CacheEngineKey).foldl odPop dTwo.dict) kB := by
  have hm := reput_does_not_refresh_recency.1 bTwo kA ⟨9, 1⟩ []
    (by decide) (by decide) (by decide)
  have hd := reput_does_not_refresh_recency.2 dTwo kA ⟨9, 1⟩ []
    ⟨"", [(kA, "k1.pt"), (kB, "k2.pt")], ⟨5⟩,
     [("k1.pt", ⟨9, 1⟩), ("k2.pt", ⟨8, 2⟩)]⟩
    (by decide) (by decide) (by decide) (by decide)
  exact ⟨hm.1, hm.2.1, hm.2.2 kB (by decide),
         hd.1, hd.2.1, hd.2.2 kB (by decide)⟩
